import Mathlib

/-!
# QuizzAI commit / reveal helpers: a shallow embedding

The off-chain side of the quiz round: answer canonicalisation, the player's
commitment, the validator's authorization digest, the quiz identity hash and
the HTTP commit operation, embedded from `helpers.js`,
`server/signCorrectAnswers.js`, `ai.js`, `server.js` and
`block/test/singleFlow.test.js`.

Conventions of the embedding.
* A JavaScript string is a Lean `String` (a sequence of Unicode scalar values,
  that is, a well-formed UTF-16 string); an answer list is a `List String`.
* A byte array (`Uint8Array`) is a `List Nat`, every element below 256.
* A call that may throw, or an `async` call whose promise may reject, returns
  `Except String α`; the error carries the message.
* The functions of the `ethers` package (`toUtf8Bytes`, `hexlify`, `getBytes`,
  `arrayify`, `concat`, `keccak256`) and of the JavaScript runtime (`join`,
  `JSON.stringify`, `sort`) are library code; they are written out here as the
  libraries define them. The Keccak-256 digest itself is a parameter
  `K : List Nat → List Nat` (bytes in, digest bytes out).
* The sources call `ethers` through the interface of version 5 in `helpers.js`
  and `ai.js` (`ethers.utils.arrayify`) and of version 6 in
  `server/signCorrectAnswers.js` and the test (`ethers.getBytes`); each call is
  embedded as the version that offers it defines it.
-/

namespace QuizzAI

/-! ## JavaScript and ethers primitives used by the sources -/

/-- The loop of `Array.prototype.join`: `k` is the index of the next element,
`R` the string built so far; the separator is added before every element but
the first. -/
def joinLoop (sep : String) : List String → Nat → String → String
  | [], _, R => R
  | e :: rest, k, R => joinLoop sep rest (k + 1) ((if k > 0 then R ++ sep else R) ++ e)

/-- The call `arr.join(sep)` on an array of strings. -/
def join (arr : List String) (sep : String) : String :=
  joinLoop sep arr 0 ""

/-- UTF-8 encoding of one Unicode scalar value, as `toUtf8Bytes` emits it
(`c >> 6 | 0xc0` and the like, written with division and remainder). -/
def utf8EncodeChar (c : Char) : List Nat :=
  let v := c.toNat
  if v < 0x80 then [v]
  else if v < 0x800 then [0xc0 + v / 64, 0x80 + v % 64]
  else if v < 0x10000 then [0xe0 + v / 4096, 0x80 + v / 64 % 64, 0x80 + v % 64]
  else [0xf0 + v / 262144, 0x80 + v / 4096 % 64, 0x80 + v / 64 % 64, 0x80 + v % 64]

/-- UTF-8 bytes of a list of characters. -/
def utf8Chars : List Char → List Nat
  | [] => []
  | c :: cs => utf8EncodeChar c ++ utf8Chars cs

/-- The call `ethers.toUtf8Bytes(str)` or `ethers.utils.toUtf8Bytes(str)` (no
normalisation form given). -/
def toUtf8Bytes (str : String) : List Nat :=
  utf8Chars str.data

/-- The sixteen characters `"0123456789abcdef"` indexed by a nibble. -/
def hexCharacter (n : Nat) : Char :=
  if n < 10 then Char.ofNat (48 + n) else Char.ofNat (87 + n)

/-- Two lower-case hex digits per byte, high nibble first. -/
def hexChars : List Nat → List Char
  | [] => []
  | v :: vs => hexCharacter (v / 16 % 16) :: hexCharacter (v % 16) :: hexChars vs

/-- The call `hexlify(bytes)`: `"0x"` followed by two hex digits per byte. -/
def hexlify (bytes : List Nat) : String :=
  ⟨'0' :: 'x' :: hexChars bytes⟩

/-- Membership in the character class `[0-9A-Fa-f]`. -/
def isHexDigit (c : Char) : Bool :=
  ('0' ≤ c && c ≤ '9') || ('a' ≤ c && c ≤ 'f') || ('A' ≤ c && c ≤ 'F')

/-- Value of one hex digit, as `parseInt(_, 16)` reads it. -/
def hexDigitValue (c : Char) : Nat :=
  if '0' ≤ c && c ≤ '9' then c.toNat - 48
  else if 'a' ≤ c && c ≤ 'f' then c.toNat - 87
  else c.toNat - 55

/-- The decoding loop shared by `getBytes` and `arrayify`:
`parseInt(hex.substring(i, i + 2), 16)` for `i = 0, 2, 4, ...`. -/
def parseHexPairs : List Char → List Nat
  | hi :: lo :: rest => (16 * hexDigitValue hi + hexDigitValue lo) :: parseHexPairs rest
  | _ => []

/-- The part `(?:[0-9a-f][0-9a-f])*$` of the pattern `getBytes` tests with the
`i` flag: hex digits, in pairs, to the end. -/
def hexPairsOnly : List Char → Bool
  | [] => true
  | hi :: lo :: rest => isHexDigit hi && isHexDigit lo && hexPairsOnly rest
  | [_] => false

/-- The call `ethers.getBytes(value)` (ethers 6) on a string: the value has to match
`/^0x(?:[0-9a-f][0-9a-f])*$/i`. -/
def getBytes (value : String) : Except String (List Nat) :=
  match value.data with
  | '0' :: x :: hex =>
    if (x = 'x' ∨ x = 'X') ∧ hexPairsOnly hex = true then .ok (parseHexPairs hex)
    else .error "invalid BytesLike value"
  | _ => .error "invalid BytesLike value"

/-- The call `ethers.utils.arrayify(value)` (ethers 5) on a string, no options: the
value has to match `/^0x[0-9A-Fa-f]*$/` and hold an even number of digits. -/
def arrayify (value : String) : Except String (List Nat) :=
  match value.data with
  | '0' :: 'x' :: hex =>
    if hex.all isHexDigit then
      if hex.length % 2 = 1 then .error "hex data is odd-length"
      else .ok (parseHexPairs hex)
    else .error "invalid arrayify value"
  | _ => .error "invalid arrayify value"

/-- Membership in the character class `[0-9a-f]`. -/
def isLowerHexDigit (c : Char) : Bool :=
  ('0' ≤ c && c ≤ '9') || ('a' ≤ c && c ≤ 'f')

/-- A 32-byte hash written the way `keccak256` prints it (a `bytes32` hex
string): `0x` followed by 64 lower-case hex digits. -/
def isQuizHash (q : String) : Bool :=
  match q.data with
  | '0' :: 'x' :: digits => digits.length == 64 && digits.all isLowerHexDigit
  | _ => false

/-- The call `ethers.concat([a, b])` on two byte arrays. -/
def concat (a b : List Nat) : List Nat :=
  a ++ b

/-- The call `ethers.keccak256(data)` on a byte array: the digest `K data` printed as a
`0x` hex string. -/
def keccak256 (K : List Nat → List Nat) (data : List Nat) : String :=
  hexlify (K data)

/-- A JavaScript string is truthy when it is not empty. -/
def truthy (s : String) : Bool :=
  s.data ≠ []

/-- The scan of `String.prototype.split` for a separator of one character:
`piece` is the text since the last separator; every separator closes a piece,
the end of the string closes the last one. -/
def splitLoop (separator : Char) : List Char → List Char → List String
  | [], piece => [⟨piece⟩]
  | c :: rest, piece =>
    if c = separator then ⟨piece⟩ :: splitLoop separator rest []
    else splitLoop separator rest (piece ++ [c])

/-- The call `S.split(separator)` for a separator string of one character. -/
def split (S : String) (separator : Char) : List String :=
  splitLoop separator S.data []

/-- The call `arr.filter(Boolean)` on an array of strings: the non-empty ones. -/
def filterBoolean (arr : List String) : List String :=
  arr.filter truthy

/-! ## helpers.js -/

namespace Helpers

/-- The function `concatAnswers(arr)`: `arr.join("|") + "|"`. The body has no
failure path, so the result is always a normal completion. -/
def concatAnswers (arr : List String) : Except String String :=
  .ok (join arr "|" ++ "|")

/-- The function `cryptoRandomHex(n)`: `crypto.randomBytes(n).toString("hex")`;
the `n` bytes the system source hands out are the argument `random`. -/
def cryptoRandomHex (random : List Nat) : String :=
  ⟨hexChars random⟩

/-- The function `generateRandomSalt()`: `"0x"` and sixteen random bytes in hex. -/
def generateRandomSalt (random : List Nat) : String :=
  "0x" ++ cryptoRandomHex random

/-- The function `computePlayerCommit(answersArray, salt = null)`: the value the returned
promise settles to. `salt` is `none` for `null` or a missing argument. -/
def computePlayerCommit (K : List Nat → List Nat) (random : List Nat)
    (answersArray : List String) (salt : Option String) : Except String String := do
  let concatenated ← concatAnswers answersArray
  let saltStr :=
    match salt with
    | some s => if truthy s then s else generateRandomSalt random
    | none => generateRandomSalt random
  let packed := toUtf8Bytes (concatenated ++ saltStr)
  pure (keccak256 K packed)

end Helpers

/-! ## server/signCorrectAnswers.js -/

namespace SignCorrectAnswers

/-- The copy of `concatAnswers` local to the signing script. -/
def concatAnswers (arr : List String) : Except String String :=
  .ok (join arr "|" ++ "|")

/-- The value of `packed` in `computeMessageHash(quizHash, correctAnswers)`:
the statements of the function up to the one that hashes. -/
def packedMessage (quizHash : String) (correctAnswers : List String) :
    Except String (List Nat) := do
  let concat_ ← concatAnswers correctAnswers
  let quizHashBytes ← getBytes quizHash
  let concatBytes := toUtf8Bytes concat_
  let packed := concat quizHashBytes concatBytes
  pure packed

/-- The function `computeMessageHash(quizHash, correctAnswers)`: keccak256 of
`packed`. -/
def computeMessageHash (K : List Nat → List Nat) (quizHash : String)
    (correctAnswers : List String) : Except String String := do
  let packed ← packedMessage quizHash correctAnswers
  pure (keccak256 K packed)

/-- The answers `main` works on:
`(process.env.CORRECT_ANSWERS || "A|B|C|D|A").split("|").filter(Boolean)`; the
argument is `none` when the variable is not set. -/
def mainAnswers (correctAnswersEnv : Option String) : List String :=
  let text :=
    match correctAnswersEnv with
    | some value => if truthy value then value else "A|B|C|D|A"
    | none => "A|B|C|D|A"
  filterBoolean (split text '|')

/-- The digest `main` prints and signs, from the two environment variables;
without a quiz hash the script reports it and exits. -/
def mainMessageHash (K : List Nat → List Nat) (quizHashEnv correctAnswersEnv : Option String) :
    Except String String :=
  let answers := mainAnswers correctAnswersEnv
  match quizHashEnv with
  | none => .error "Set QUIZ_HASH in .env or edit the script"
  | some quizHash =>
    if truthy quizHash then computeMessageHash K quizHash answers
    else .error "Set QUIZ_HASH in .env or edit the script"

end SignCorrectAnswers

deriving instance DecidableEq for Except

/-! ## JSON documents and json-stable-stringify -/

/-- A value `JSON.parse` returns. A number is carried as the text
`JSON.stringify` prints for it; an object lists its own keys in property order. -/
inductive Json where
  | null
  | bool (b : Bool)
  | num (text : String)
  | str (s : String)
  | arr (items : List Json)
  | obj (members : List (String × Json))

/-- One character inside `JSON.stringify` of a string. -/
def quoteChar (c : Char) : List Char :=
  if c = '"' then ['\\', '"']
  else if c = '\\' then ['\\', '\\']
  else if c.toNat = 8 then ['\\', 'b']
  else if c.toNat = 9 then ['\\', 't']
  else if c.toNat = 10 then ['\\', 'n']
  else if c.toNat = 12 then ['\\', 'f']
  else if c.toNat = 13 then ['\\', 'r']
  else if c.toNat < 32 then
    ['\\', 'u', '0', '0', hexCharacter (c.toNat / 16), hexCharacter (c.toNat % 16)]
  else [c]

/-- The call `JSON.stringify(s)` for a string `s`. -/
def quote (s : String) : String :=
  ⟨'"' :: (s.data.flatMap quoteChar ++ ['"'])⟩

/-- UTF-16 code units of one character. -/
def utf16Units (c : Char) : List Nat :=
  if c.toNat < 0x10000 then [c.toNat]
  else [0xD800 + (c.toNat - 0x10000) / 0x400, 0xDC00 + (c.toNat - 0x10000) % 0x400]

/-- UTF-16 code units of a string. -/
def utf16 : List Char → List Nat
  | [] => []
  | c :: cs => utf16Units c ++ utf16 cs

/-- Lexicographic `≤` on code unit sequences. -/
def unitsLe : List Nat → List Nat → Bool
  | [], _ => true
  | _ :: _, [] => false
  | x :: xs, y :: ys => decide (x < y) || (x == y && unitsLe xs ys)

/-- The order `Array.prototype.sort()` puts strings in when it is given no
comparator: by UTF-16 code units. -/
def keyLe (a b : String) : Prop :=
  unitsLe (utf16 a.data) (utf16 b.data) = true

instance : DecidableRel keyLe := fun a b =>
  inferInstanceAs (Decidable (unitsLe (utf16 a.data) (utf16 b.data) = true))

/-- The call `objectKeys(node).sort()`. -/
def sortKeys (keys : List String) : List String :=
  List.insertionSort keyLe keys

/-- The loop over the sorted keys of an object: `rendered` holds, for every
key of the object, the serialization of `node[key]`; a key whose value has an
empty serialization is skipped. -/
def memberTexts (rendered : List (String × String)) : List String → List String
  | [] => []
  | key :: keys =>
    match rendered.lookup key with
    | some value =>
      if truthy value then (quote key ++ ":" ++ value) :: memberTexts rendered keys
      else memberTexts rendered keys
    | none => memberTexts rendered keys

mutual
/-- Modelled from the spec: the package `json-stable-stringify` is not part of
this repository's sources. `stringify(obj)` with no options: a primitive is
printed by `JSON.stringify`, an array keeps its order, an object is printed
with its keys sorted (map-like fields are sorted by key before serialization,
sequence-like fields preserve their order). Printing is pure, so the values of
an object are printed once (`stringifyMembers`) and looked up by key. -/
def stringify : Json → String
  | .null => "null"
  | .bool b => if b then "true" else "false"
  | .num text => text
  | .str s => quote s
  | .arr items => "[" ++ join (stringifyItems items) "," ++ "]"
  | .obj members =>
    "\x7b" ++ join (memberTexts (stringifyMembers members) (sortKeys (members.map Prod.fst))) ","
      ++ "\x7d"
/-- The items of an array: `stringify(item) || "null"` each. -/
def stringifyItems : List Json → List String
  | [] => []
  | item :: rest =>
    (if truthy (stringify item) then stringify item else "null") :: stringifyItems rest
/-- The values of an object, printed, by key. -/
def stringifyMembers : List (String × Json) → List (String × String)
  | [] => []
  | (key, value) :: rest => (key, stringify value) :: stringifyMembers rest
end

mutual
/-- Every object of the document has pairwise distinct keys, as every
JavaScript object has. -/
def distinctKeys : Json → Bool
  | .arr items => distinctKeysItems items
  | .obj members => decide (members.map Prod.fst).Nodup && distinctKeysMembers members
  | _ => true
/-- The same for the items of an array. -/
def distinctKeysItems : List Json → Bool
  | [] => true
  | item :: rest => distinctKeys item && distinctKeysItems rest
/-- The same for the values of an object. -/
def distinctKeysMembers : List (String × Json) → Bool
  | [] => true
  | (_, value) :: rest => distinctKeys value && distinctKeysMembers rest
end

mutual
/-- Structural equality of two documents up to the order in which objects list
their keys: equal primitives, arrays equal item by item in the same order,
objects with the same number of keys where every key of the first names an
equal value in the second. -/
def sameDocument : Json → Json → Bool
  | .null, .null => true
  | .bool a, .bool b => a == b
  | .num a, .num b => a == b
  | .str a, .str b => a == b
  | .arr xs, .arr ys => sameItems xs ys
  | .obj ms, .obj ns => ms.length == ns.length && sameMembers ms ns
  | _, _ => false
/-- Arrays: same length, equal items position by position. -/
def sameItems : List Json → List Json → Bool
  | [], [] => true
  | x :: xs, y :: ys => sameDocument x y && sameItems xs ys
  | _, _ => false
/-- Every member of the first list has an equal value under its key in the
second. -/
def sameMembers : List (String × Json) → List (String × Json) → Bool
  | [], _ => true
  | (key, value) :: rest, ns =>
    (match ns.lookup key with
      | some other => sameDocument value other
      | none => false) && sameMembers rest ns
end

/-! ## ai.js -/

namespace Ai

/-- What `generateQuizAndHash` returns. -/
structure QuizAndHash where
  quiz : Json
  quizHash : String
  serialized : String

/-- The function `generateQuizAndHash()` from the point where the completion's content has
been parsed: `quizJson` is the value `JSON.parse(content)` returned. -/
def generateQuizAndHash (K : List Nat → List Nat) (quizJson : Json) : QuizAndHash :=
  let jsonStr := stringify quizJson
  let quizHash := keccak256 K (toUtf8Bytes jsonStr)
  { quiz := quizJson, quizHash := quizHash, serialized := jsonStr }

/-- A wallet of the signing library: which keys `new ethers.Wallet(key)`
accepts, and `wallet.signMessage(bytes)` (the personal-message signature). -/
structure Wallet where
  acceptsKey : String → Bool
  signMessage : String → List Nat → String

/-- The digest `signCorrectAnswers` builds before signing (the statements from
`concatenated` to `messageHash`). -/
def messageHash (K : List Nat → List Nat) (quizHash : String)
    (correctAnswers : List String) : Except String String := do
  let concatenated ← Helpers.concatAnswers correctAnswers
  let quizHashBytes ← arrayify quizHash
  let concatenatedBytes := toUtf8Bytes concatenated
  let packed := concat quizHashBytes concatenatedBytes
  pure (keccak256 K packed)

/-- The function `signCorrectAnswers(validatorPrivateKey, quizHash, correctAnswers)`: the
value the returned promise settles to. The key is `none` when it is
`undefined`. -/
def signCorrectAnswers (W : Wallet) (K : List Nat → List Nat)
    (validatorPrivateKey : Option String) (quizHash : String)
    (correctAnswers : List String) : Except String String :=
  match validatorPrivateKey with
  | none => .error "VALIDATOR_PRIVATE_KEY is not set."
  | some key =>
    if truthy key then
      if W.acceptsKey key then do
        let digest ← messageHash K quizHash correctAnswers
        let arrayified ← arrayify digest
        pure (W.signMessage key arrayified)
      else .error "invalid private key"
    else .error "VALIDATOR_PRIVATE_KEY is not set."

end Ai

/-! ## server.js -/

namespace Server

/-- The fields the commit handler reads from `req.body`. -/
structure CommitBody where
  answers : Option (List String)
  salt : Option String

/-- A value placed in the response object: a string, or a promise together
with what it settles to. -/
inductive Value where
  | str (s : String)
  | promise (settled : Except String String)

/-- The text `JSON.stringify` gives such a value: a promise has no enumerable property of
its own and no `toJSON`, so it prints as an empty object. -/
def jsonStringify : Value → String
  | .str s => quote s
  | .promise _ => "\x7b\x7d"

/-- An HTTP response: status code and body text. -/
structure Response where
  status : Nat
  body : String
deriving DecidableEq, Repr

/-- The handler of `POST /player/commit`. `computePlayerCommit` is an `async`
function and the handler does not await it, so `commit` is the promise. -/
def playerCommit (K : List Nat → List Nat) (random : List Nat) (body : CommitBody) :
    Response :=
  match body.answers with
  | none => { status := 400, body := "answers required" }
  | some answers =>
    let saltOrNull :=
      match body.salt with
      | some s => if truthy s then some s else none
      | none => none
    let commit := Value.promise (Helpers.computePlayerCommit K random answers saltOrNull)
    { status := 200, body := "\x7b" ++ quote "commit" ++ ":" ++ jsonStringify commit ++ "\x7d" }

/-- The response the commit operation is to give for a commit hash `h`:
the JSON object with the one field `commit` holding `h`. -/
def commitResponse (h : String) : Response :=
  { status := 200, body := "\x7b" ++ quote "commit" ++ ":" ++ jsonStringify (.str h) ++ "\x7d" }

end Server

/-! ## block/test/singleFlow.test.js -/

namespace SingleFlowTest

/-- The commit hash the test builds by hand (`concat`, `commitPacked`,
`commitHash`); `scripts/interact.cjs` builds it the same way. -/
def commitHash (K : List Nat → List Nat) (answers : List String) (salt : String) : String :=
  let concat_ := join answers "|" ++ "|"
  let commitPacked := toUtf8Bytes (concat_ ++ salt)
  keccak256 K commitPacked

/-- The authorization digest the test builds by hand (`concatCorrect` to
`messageHash`). -/
def messageHash (K : List Nat → List Nat) (quizHash : String) (answers : List String) :
    Except String String := do
  let concatCorrect := join answers "|" ++ "|"
  let quizHashBytes ← getBytes quizHash
  let concatBytes := toUtf8Bytes concatCorrect
  let packed := concat quizHashBytes concatBytes
  pure (keccak256 K packed)

end SingleFlowTest

/-! ## The canonical form as the specification words it -/

/-- Canonical form of an answer set in the specification's words:
`join(answers, "|") + "|"`, the labels with one delimiter between neighbours
and one trailing delimiter. -/
def canonicalizeSpec (answers : List String) : String :=
  "|".intercalate answers ++ "|"

/-- Every label followed by one delimiter, on character lists. -/
def delimited (labels : List (List Char)) : List Char :=
  (labels.map fun l => l ++ ['|']).flatten

/-! ## Sample values -/

/-- A quiz document shaped like the sample quiz of the test, a time limit
added to its metadata. -/
def sampleQuiz : Json :=
  .obj [("quiz_id", .str "test-1"), ("round", .num "1"), ("questions", .arr [.str "q1"]),
    ("metadata", .obj [("timeLimitSeconds", .num "45"), ("questionCount", .num "5")])]

/-- The same quiz with the keys listed in another order at both depths. -/
def sampleQuizReordered : Json :=
  .obj [("metadata", .obj [("questionCount", .num "5"), ("timeLimitSeconds", .num "45")]),
    ("questions", .arr [.str "q1"]), ("round", .num "1"), ("quiz_id", .str "test-1")]

/-- A 32-byte quiz hash, every byte `0x11`. -/
def sampleQuizHash : String :=
  "0x1111111111111111111111111111111111111111111111111111111111111111"

/-! ## Lemmas on canonicalisation -/

theorem intercalate_cons_eq (sep x : List Char) (xs : List (List Char)) :
    List.intercalate sep (x :: xs) = x ++ (xs.map fun e => sep ++ e).flatten := by
  induction xs generalizing x with
  | nil => simp [List.intercalate]
  | cons y ys ih =>
    have h := ih y
    simp only [List.intercalate, List.intersperse_cons₂, List.flatten_cons, List.map_cons] at h ⊢
    rw [h, List.append_assoc]

theorem joinLoop_data (sep : String) (arr : List String) (k : Nat) (hk : k > 0) (R : String) :
    (joinLoop sep arr k R).data =
      R.data ++ ((arr.map String.data).map fun e => sep.data ++ e).flatten := by
  induction arr generalizing k R with
  | nil => simp [joinLoop]
  | cons e rest ih =>
    rw [joinLoop, ih (k + 1) (Nat.succ_pos k)]
    simp [hk, List.append_assoc]

theorem join_data (arr : List String) (sep : String) :
    (join arr sep).data = List.intercalate sep.data (arr.map String.data) := by
  cases arr with
  | nil => simp [join, joinLoop, List.intercalate]
  | cons e rest =>
    rw [join, joinLoop, joinLoop_data sep rest 1 Nat.one_pos, List.map_cons, intercalate_cons_eq]
    simp

theorem intercalate_go_data (acc sep : String) (l : List String) :
    (String.intercalate.go acc sep l).data =
      acc.data ++ ((l.map String.data).map fun e => sep.data ++ e).flatten := by
  induction l generalizing acc with
  | nil => simp [String.intercalate.go]
  | cons e rest ih =>
    rw [String.intercalate.go, ih]
    simp [List.append_assoc]

theorem string_intercalate_data (sep : String) (l : List String) :
    (sep.intercalate l).data = List.intercalate sep.data (l.map String.data) := by
  cases l with
  | nil => simp [String.intercalate, List.intercalate]
  | cons e rest =>
    rw [String.intercalate, intercalate_go_data, List.map_cons, intercalate_cons_eq]

theorem join_eq_intercalate (arr : List String) (sep : String) :
    join arr sep = sep.intercalate arr := by
  apply String.ext
  rw [join_data, string_intercalate_data]

theorem intercalate_append_eq_delimited (labels : List (List Char)) (h : labels ≠ []) :
    List.intercalate ['|'] labels ++ ['|'] = delimited labels := by
  induction labels with
  | nil => exact absurd rfl h
  | cons x xs ih =>
    cases xs with
    | nil => simp [List.intercalate, delimited]
    | cons y ys =>
      have h2 := ih (List.cons_ne_nil y ys)
      rw [intercalate_cons_eq] at h2 ⊢
      simp only [delimited, List.map_cons, List.flatten_cons, List.append_assoc] at h2 ⊢
      rw [h2]

theorem intercalate_append_cons (sep : List Char) (pre : List (List Char)) (x : List Char)
    (rest : List (List Char)) :
    List.intercalate sep (pre ++ x :: rest) =
      (pre.map fun e => e ++ sep).flatten ++ List.intercalate sep (x :: rest) := by
  induction pre with
  | nil => simp
  | cons p ps ih =>
    cases ps with
    | nil =>
      rw [List.cons_append, intercalate_cons_eq, List.nil_append, List.map_cons,
        intercalate_cons_eq]
      simp
    | cons q qs =>
      rw [List.cons_append, intercalate_cons_eq]
      rw [List.cons_append, intercalate_cons_eq] at ih
      simp only [List.cons_append, List.map_cons, List.flatten_cons, List.append_assoc] at ih ⊢
      rw [ih]

/-- Characters of the canonical string `arr.join("|") + "|"`. -/
theorem canonical_data (arr : List String) :
    (join arr "|" ++ "|").data = List.intercalate ['|'] (arr.map String.data) ++ ['|'] := by
  rw [String.data_append, join_data]

theorem canonical_data_of_ne_nil (arr : List String) (h : arr ≠ []) :
    (join arr "|" ++ "|").data = delimited (arr.map String.data) := by
  rw [canonical_data, intercalate_append_eq_delimited]
  simpa using h

/-- A delimiter-free head is determined by the text up to the first delimiter. -/
theorem append_delimiter_inj (x y r1 r2 : List Char) (hx : '|' ∉ x) (hy : '|' ∉ y)
    (h : x ++ '|' :: r1 = y ++ '|' :: r2) : x = y ∧ r1 = r2 := by
  induction x generalizing y with
  | nil =>
    cases y with
    | nil => simpa using h
    | cons d ds =>
      simp only [List.nil_append, List.cons_append, List.cons.injEq] at h
      exact absurd (h.1 ▸ List.mem_cons_self _ _) hy
  | cons c cs ih =>
    cases y with
    | nil =>
      simp only [List.nil_append, List.cons_append, List.cons.injEq] at h
      exact absurd (h.1 ▸ List.mem_cons_self _ _) hx
    | cons d ds =>
      simp only [List.cons_append, List.cons.injEq] at h
      have hcs : '|' ∉ cs := fun hm => hx (List.mem_cons_of_mem _ hm)
      have hds : '|' ∉ ds := fun hm => hy (List.mem_cons_of_mem _ hm)
      obtain ⟨h1, h2⟩ := ih ds hcs hds h.2
      exact ⟨by rw [h.1, h1], h2⟩

theorem delimited_cons (l : List Char) (ls : List (List Char)) :
    delimited (l :: ls) = l ++ '|' :: delimited ls := by
  simp [delimited]

theorem delimited_inj (a b : List (List Char)) (ha : ∀ l ∈ a, '|' ∉ l) (hb : ∀ l ∈ b, '|' ∉ l)
    (h : delimited a = delimited b) : a = b := by
  induction a generalizing b with
  | nil =>
    cases b with
    | nil => rfl
    | cons y ys =>
      rw [delimited_cons] at h
      exact absurd h.symm (by simp [delimited])
  | cons x xs ih =>
    cases b with
    | nil =>
      rw [delimited_cons] at h
      exact absurd h (by simp [delimited])
    | cons y ys =>
      rw [delimited_cons, delimited_cons] at h
      obtain ⟨h1, h2⟩ := append_delimiter_inj x y _ _ (ha x (List.mem_cons_self _ _))
        (hb y (List.mem_cons_self _ _)) h
      rw [h1, ih ys (fun l hl => ha l (List.mem_cons_of_mem _ hl))
        (fun l hl => hb l (List.mem_cons_of_mem _ hl)) h2]

theorem map_data_injective (a b : List String) (h : a.map String.data = b.map String.data) :
    a = b := by
  have hinj : Function.Injective String.data := fun s t hst => String.ext hst
  exact List.map_injective_iff.mpr hinj h

/-- The canonical string determines a non-empty, delimiter-free answer list. -/
theorem canonical_injective (a b : List String) (hne : a = [] ↔ b = [])
    (ha : ∀ l ∈ a, '|' ∉ l.data) (hb : ∀ l ∈ b, '|' ∉ l.data)
    (h : join a "|" ++ "|" = join b "|" ++ "|") : a = b := by
  by_cases hempty : a = []
  · rw [hempty, hne.mp hempty]
  · have hb0 : b ≠ [] := fun hb1 => hempty (hne.mpr hb1)
    have hd := congrArg String.data h
    rw [canonical_data_of_ne_nil a hempty, canonical_data_of_ne_nil b hb0] at hd
    apply map_data_injective
    apply delimited_inj _ _ _ _ hd
    · intro l hl
      obtain ⟨s, hs, rfl⟩ := List.mem_map.mp hl
      exact ha s hs
    · intro l hl
      obtain ⟨s, hs, rfl⟩ := List.mem_map.mp hl
      exact hb s hs

theorem canonical_eq_spec (arr : List String) : join arr "|" ++ "|" = canonicalizeSpec arr := by
  rw [canonicalizeSpec, join_eq_intercalate]

/-! ## Lemmas on UTF-8 and hex -/

theorem char_eq_of_toNat_eq (c d : Char) (h : c.toNat = d.toNat) : c = d := by
  rw [← Char.ofNat_toNat c, ← Char.ofNat_toNat d, h]

theorem utf8EncodeChar_append_inj (c d : Char) (r1 r2 : List Nat)
    (h : utf8EncodeChar c ++ r1 = utf8EncodeChar d ++ r2) : c = d ∧ r1 = r2 := by
  have key : c.toNat = d.toNat ∧ r1 = r2 := by
    unfold utf8EncodeChar at h
    simp only at h
    split_ifs at h <;>
      simp only [List.cons_append, List.nil_append, List.cons.injEq] at h <;>
      first
        | (exfalso; omega)
        | exact ⟨by omega, by simp only [h]⟩
  exact ⟨char_eq_of_toNat_eq c d key.1, key.2⟩

theorem utf8Chars_injective (s t : List Char) (h : utf8Chars s = utf8Chars t) : s = t := by
  induction s generalizing t with
  | nil =>
    cases t with
    | nil => rfl
    | cons d ds =>
      exfalso
      simp only [utf8Chars, utf8EncodeChar] at h
      split_ifs at h <;> simp at h
  | cons c cs ih =>
    cases t with
    | nil =>
      exfalso
      simp only [utf8Chars, utf8EncodeChar] at h
      split_ifs at h <;> simp at h
    | cons d ds =>
      simp only [utf8Chars] at h
      obtain ⟨h1, h2⟩ := utf8EncodeChar_append_inj c d _ _ h
      rw [h1, ih ds h2]

/-- Distinct strings have distinct UTF-8 encodings. -/
theorem toUtf8Bytes_injective (s t : String) (h : toUtf8Bytes s = toUtf8Bytes t) : s = t :=
  String.ext (utf8Chars_injective _ _ h)

theorem hexCharacter_spec :
    ∀ n, n < 16 → isHexDigit (hexCharacter n) = true ∧ hexDigitValue (hexCharacter n) = n := by
  decide

theorem hexChars_all_hex (bytes : List Nat) : (hexChars bytes).all isHexDigit = true := by
  induction bytes with
  | nil => rfl
  | cons v vs ih =>
    simp only [hexChars, List.all_cons, ih, Bool.and_true]
    rw [(hexCharacter_spec _ (Nat.mod_lt _ (by decide))).1,
      (hexCharacter_spec _ (Nat.mod_lt _ (by decide))).1]
    rfl

theorem hexChars_length_even (bytes : List Nat) : (hexChars bytes).length % 2 = 0 := by
  induction bytes with
  | nil => rfl
  | cons v vs ih => simp only [hexChars, List.length_cons]; omega

/-- Decoding the hex digits of a byte string gives the bytes back. -/
theorem parseHexPairs_hexChars (bytes : List Nat) (h : ∀ b ∈ bytes, b < 256) :
    parseHexPairs (hexChars bytes) = bytes := by
  induction bytes with
  | nil => rfl
  | cons v vs ih =>
    have hv : v < 256 := h v (List.mem_cons_self _ _)
    simp only [hexChars, parseHexPairs]
    rw [(hexCharacter_spec _ (Nat.mod_lt _ (by decide))).2,
      (hexCharacter_spec _ (Nat.mod_lt _ (by decide))).2,
      ih (fun b hb => h b (List.mem_cons_of_mem _ hb))]
    congr 1
    omega

theorem arrayify_digits (digits : List Char) (hd : digits.all isHexDigit = true)
    (he : digits.length % 2 = 0) :
    arrayify ⟨'0' :: 'x' :: digits⟩ = .ok (parseHexPairs digits) := by
  simp only [arrayify, hd, if_true]
  rw [if_neg (by omega)]

theorem hexPairsOnly_of_length (n : Nat) (digits : List Char) (hn : digits.length = 2 * n)
    (hd : digits.all isHexDigit = true) : hexPairsOnly digits = true := by
  induction n generalizing digits with
  | zero =>
    cases digits with
    | nil => rfl
    | cons c cs => simp at hn
  | succ m ih =>
    match digits, hn, hd with
    | c :: d :: rest, hn, hd =>
      simp only [List.all_cons, Bool.and_eq_true] at hd
      simp only [hexPairsOnly, hd.1, hd.2.1, Bool.true_and]
      exact ih rest (by simp only [List.length_cons] at hn; omega) hd.2.2
    | [_], hn, _ => simp only [List.length_singleton] at hn; omega
    | [], hn, _ => simp only [List.length_nil] at hn; omega

theorem hexPairsOnly_of_all (digits : List Char) (hd : digits.all isHexDigit = true)
    (he : digits.length % 2 = 0) : hexPairsOnly digits = true :=
  hexPairsOnly_of_length (digits.length / 2) digits (by omega) hd

theorem getBytes_digits (digits : List Char) (hd : digits.all isHexDigit = true)
    (he : digits.length % 2 = 0) :
    getBytes ⟨'0' :: 'x' :: digits⟩ = .ok (parseHexPairs digits) := by
  simp [getBytes, hexPairsOnly_of_all digits hd he]

/-- What `arrayify` returns for a digest printed by `hexlify`. -/
theorem arrayify_hexlify (bytes : List Nat) (h : ∀ b ∈ bytes, b < 256) :
    arrayify (hexlify bytes) = .ok bytes := by
  rw [hexlify, arrayify_digits _ (hexChars_all_hex bytes) (hexChars_length_even bytes),
    parseHexPairs_hexChars bytes h]

/-- What `getBytes` returns for a digest printed by `hexlify`. -/
theorem getBytes_hexlify (bytes : List Nat) (h : ∀ b ∈ bytes, b < 256) :
    getBytes (hexlify bytes) = .ok bytes := by
  rw [hexlify, getBytes_digits _ (hexChars_all_hex bytes) (hexChars_length_even bytes),
    parseHexPairs_hexChars bytes h]

/-! ## Lemmas on the authorization message -/

/-- What `computeMessageHash` packs for a quiz hash that decodes to `b`. -/
theorem packedMessage_of_getBytes (q : String) (b : List Nat) (a : List String)
    (hq : getBytes q = .ok b) :
    SignCorrectAnswers.packedMessage q a = .ok (b ++ toUtf8Bytes (canonicalizeSpec a)) := by
  simp only [SignCorrectAnswers.packedMessage, SignCorrectAnswers.concatAnswers, hq,
    canonical_eq_spec, concat]
  rfl

/-- What `computeMessageHash` returns for a quiz hash that decodes to `b`. -/
theorem computeMessageHash_of_getBytes (K : List Nat → List Nat) (q : String) (b : List Nat)
    (a : List String) (hq : getBytes q = .ok b) :
    SignCorrectAnswers.computeMessageHash K q a
      = .ok (keccak256 K (b ++ toUtf8Bytes (canonicalizeSpec a))) := by
  simp only [SignCorrectAnswers.computeMessageHash, packedMessage_of_getBytes q b a hq]
  rfl

theorem char_le_iff (a b : Char) : a ≤ b ↔ a.toNat ≤ b.toNat := by
  rw [Char.le_def]
  exact Iff.rfl

/-- A lower-case hex digit is a hex digit, and printing its value gives it
back. -/
theorem lowerHexDigit_spec (c : Char) (h : isLowerHexDigit c = true) :
    isHexDigit c = true ∧ hexDigitValue c < 16 ∧ hexCharacter (hexDigitValue c) = c := by
  simp only [isLowerHexDigit, Bool.or_eq_true, Bool.and_eq_true, decide_eq_true_eq,
    char_le_iff] at h
  have h0 : ('0' : Char).toNat = 48 := rfl
  have h9 : ('9' : Char).toNat = 57 := rfl
  have ha : ('a' : Char).toNat = 97 := rfl
  have hf : ('f' : Char).toNat = 102 := rfl
  rw [h0, h9, ha, hf] at h
  refine ⟨?_, ?_, ?_⟩
  · simp only [isHexDigit, Bool.or_eq_true, Bool.and_eq_true, decide_eq_true_eq, char_le_iff]
    rw [h0, h9, ha, hf]
    exact Or.inl h
  · simp only [hexDigitValue, Bool.and_eq_true, decide_eq_true_eq, char_le_iff]
    rw [h0, h9, ha, hf]
    rcases h with h | h
    · rw [if_pos h]
      omega
    · have hn : ¬ (48 ≤ c.toNat ∧ c.toNat ≤ 57) := by omega
      rw [if_neg hn, if_pos h]
      omega
  · simp only [hexDigitValue, hexCharacter, Bool.and_eq_true, decide_eq_true_eq, char_le_iff]
    rw [h0, h9, ha, hf]
    rcases h with h | h
    · rw [if_pos h, if_pos (by omega), show 48 + (c.toNat - 48) = c.toNat by omega,
        Char.ofNat_toNat]
    · have hn : ¬ (48 ≤ c.toNat ∧ c.toNat ≤ 57) := by omega
      have hv : ¬ c.toNat - 87 < 10 := by omega
      rw [if_neg hn, if_pos h, if_neg hv, show 87 + (c.toNat - 87) = c.toNat by omega,
        Char.ofNat_toNat]

/-- Printing the bytes decoded from lower-case hex digits gives the digits
back. -/
theorem hexChars_parseHexPairs (n : Nat) (digits : List Char) (hn : digits.length = 2 * n)
    (hd : digits.all isLowerHexDigit = true) : hexChars (parseHexPairs digits) = digits := by
  induction n generalizing digits with
  | zero =>
    cases digits with
    | nil => rfl
    | cons c cs => simp at hn
  | succ m ih =>
    match digits, hn, hd with
    | hi :: lo :: rest, hn, hd =>
      simp only [List.all_cons, Bool.and_eq_true] at hd
      obtain ⟨_, h1, e1⟩ := lowerHexDigit_spec hi hd.1
      obtain ⟨_, h2, e2⟩ := lowerHexDigit_spec lo hd.2.1
      have hrest := ih rest (by simp only [List.length_cons] at hn; omega) hd.2.2
      simp only [parseHexPairs, hexChars, hrest]
      rw [show (16 * hexDigitValue hi + hexDigitValue lo) / 16 % 16 = hexDigitValue hi by omega,
        show (16 * hexDigitValue hi + hexDigitValue lo) % 16 = hexDigitValue lo by omega,
        e1, e2]
    | [_], hn, _ => simp only [List.length_singleton] at hn; omega
    | [], hn, _ => simp only [List.length_nil] at hn; omega

theorem parseHexPairs_length (n : Nat) (digits : List Char) (hn : digits.length = 2 * n) :
    (parseHexPairs digits).length = n := by
  induction n generalizing digits with
  | zero =>
    cases digits with
    | nil => rfl
    | cons c cs => simp at hn
  | succ m ih =>
    match digits, hn with
    | hi :: lo :: rest, hn =>
      simp only [parseHexPairs, List.length_cons]
      rw [ih rest (by simp only [List.length_cons] at hn; omega)]
    | [_], hn => simp only [List.length_singleton] at hn; omega
    | [], hn => simp only [List.length_nil] at hn; omega

theorem all_hex_of_all_lower (digits : List Char) (hd : digits.all isLowerHexDigit = true) :
    digits.all isHexDigit = true := by
  rw [List.all_eq_true] at hd ⊢
  intro c hc
  exact (lowerHexDigit_spec c (hd c hc)).1

/-- A 32-byte hash string decodes to 32 bytes, and it is those bytes printed. -/
theorem isQuizHash_spec (q : String) (h : isQuizHash q = true) :
    ∃ b, b.length = 32 ∧ getBytes q = .ok b ∧ q = hexlify b := by
  unfold isQuizHash at h
  split at h
  · rename_i digits hq
    have hq2 : q = ⟨'0' :: 'x' :: digits⟩ := String.ext hq
    simp only [Bool.and_eq_true, beq_iff_eq] at h
    refine ⟨parseHexPairs digits, parseHexPairs_length 32 digits h.1, ?_, ?_⟩
    · rw [hq2]
      exact getBytes_digits digits (all_hex_of_all_lower digits h.2) (by omega)
    · rw [hq2, hexlify, hexChars_parseHexPairs 32 digits h.1 h.2]
  · exact absurd h (by decide)

/-! ## Lemmas on the key order and on stable serialization -/

theorem unitsLe_refl (a : List Nat) : unitsLe a a = true := by
  induction a with
  | nil => rfl
  | cons x xs ih => simp [unitsLe, ih]

theorem unitsLe_total (a b : List Nat) : unitsLe a b = true ∨ unitsLe b a = true := by
  induction a generalizing b with
  | nil => exact Or.inl rfl
  | cons x xs ih =>
    cases b with
    | nil => exact Or.inr rfl
    | cons y ys =>
      simp only [unitsLe, Bool.or_eq_true, decide_eq_true_eq, Bool.and_eq_true, beq_iff_eq]
      rcases Nat.lt_trichotomy x y with hlt | heq | hgt
      · exact Or.inl (Or.inl hlt)
      · rcases ih ys with h | h
        · exact Or.inl (Or.inr ⟨heq, h⟩)
        · exact Or.inr (Or.inr ⟨heq.symm, h⟩)
      · exact Or.inr (Or.inl hgt)

theorem unitsLe_trans (a b c : List Nat) (h1 : unitsLe a b = true) (h2 : unitsLe b c = true) :
    unitsLe a c = true := by
  induction a generalizing b c with
  | nil => rfl
  | cons x xs ih =>
    cases b with
    | nil => simp [unitsLe] at h1
    | cons y ys =>
      cases c with
      | nil => simp [unitsLe] at h2
      | cons z zs =>
        simp only [unitsLe, Bool.or_eq_true, decide_eq_true_eq, Bool.and_eq_true,
          beq_iff_eq] at h1 h2 ⊢
        rcases h1 with h1 | ⟨e1, h1⟩
        · rcases h2 with h2 | ⟨e2, _⟩
          · exact Or.inl (by omega)
          · exact Or.inl (by omega)
        · rcases h2 with h2 | ⟨e2, h2⟩
          · exact Or.inl (by omega)
          · exact Or.inr ⟨by omega, ih ys zs h1 h2⟩

theorem unitsLe_antisymm (a b : List Nat) (h1 : unitsLe a b = true) (h2 : unitsLe b a = true) :
    a = b := by
  induction a generalizing b with
  | nil =>
    cases b with
    | nil => rfl
    | cons y ys => simp [unitsLe] at h2
  | cons x xs ih =>
    cases b with
    | nil => simp [unitsLe] at h1
    | cons y ys =>
      simp only [unitsLe, Bool.or_eq_true, decide_eq_true_eq, Bool.and_eq_true,
        beq_iff_eq] at h1 h2
      rcases h1 with h1 | ⟨e1, h1⟩
      · rcases h2 with h2 | ⟨e2, _⟩ <;> omega
      · rcases h2 with h2 | ⟨_, h2⟩
        · omega
        · rw [e1, ih ys h1 h2]

theorem char_toNat_valid (c : Char) :
    c.toNat < 0xD800 ∨ (0xDFFF < c.toNat ∧ c.toNat < 0x110000) := c.valid

theorem utf16Units_append_inj (c d : Char) (r1 r2 : List Nat)
    (h : utf16Units c ++ r1 = utf16Units d ++ r2) : c = d ∧ r1 = r2 := by
  have hc := char_toNat_valid c
  have hd := char_toNat_valid d
  have key : c.toNat = d.toNat ∧ r1 = r2 := by
    unfold utf16Units at h
    split_ifs at h <;>
      simp only [List.cons_append, List.nil_append, List.cons.injEq] at h <;>
      first
        | (exfalso; omega)
        | exact ⟨by omega, by simp only [h]⟩
  exact ⟨char_eq_of_toNat_eq c d key.1, key.2⟩

theorem utf16_injective (s t : List Char) (h : utf16 s = utf16 t) : s = t := by
  induction s generalizing t with
  | nil =>
    cases t with
    | nil => rfl
    | cons d ds =>
      exfalso
      simp only [utf16, utf16Units] at h
      split_ifs at h <;> simp at h
  | cons c cs ih =>
    cases t with
    | nil =>
      exfalso
      simp only [utf16, utf16Units] at h
      split_ifs at h <;> simp at h
    | cons d ds =>
      simp only [utf16] at h
      obtain ⟨h1, h2⟩ := utf16Units_append_inj c d _ _ h
      rw [h1, ih ds h2]

instance : IsTotal String keyLe := ⟨fun _ _ => unitsLe_total _ _⟩
instance : IsTrans String keyLe := ⟨fun _ _ _ h1 h2 => unitsLe_trans _ _ _ h1 h2⟩
instance : IsAntisymm String keyLe :=
  ⟨fun _ _ h1 h2 => String.ext (utf16_injective _ _ (unitsLe_antisymm _ _ h1 h2))⟩

/-- Sorting depends on the set of keys only, not on the order they come in. -/
theorem sortKeys_perm (k1 k2 : List String) (h : k1.Perm k2) : sortKeys k1 = sortKeys k2 :=
  List.eq_of_perm_of_sorted
    (((List.perm_insertionSort keyLe k1).trans h).trans (List.perm_insertionSort keyLe k2).symm)
    (List.sorted_insertionSort keyLe k1) (List.sorted_insertionSort keyLe k2)

theorem mem_sortKeys (k : String) (keys : List String) : k ∈ sortKeys keys ↔ k ∈ keys :=
  (List.perm_insertionSort keyLe keys).mem_iff

theorem memberTexts_congr (r1 r2 : List (String × String)) (keys : List String)
    (h : ∀ k ∈ keys, r1.lookup k = r2.lookup k) : memberTexts r1 keys = memberTexts r2 keys := by
  induction keys with
  | nil => rfl
  | cons k ks ih =>
    have hk := h k (List.mem_cons_self _ _)
    have ih2 := ih (fun k2 hk2 => h k2 (List.mem_cons_of_mem _ hk2))
    simp only [memberTexts, hk, ih2]

theorem lookup_stringifyMembers (ms : List (String × Json)) (k : String) :
    (stringifyMembers ms).lookup k = (ms.lookup k).map stringify := by
  induction ms with
  | nil => rfl
  | cons m rest ih =>
    obtain ⟨key, value⟩ := m
    simp only [stringifyMembers, List.lookup_cons]
    by_cases hk : k == key
    · simp [hk]
    · simp [hk, ih]

theorem distinctKeys_of_lookup (ns : List (String × Json)) (k : String) (w : Json)
    (hd : distinctKeysMembers ns = true) (h : ns.lookup k = some w) : distinctKeys w = true := by
  induction ns with
  | nil => simp at h
  | cons m rest ih =>
    obtain ⟨key, value⟩ := m
    simp only [distinctKeysMembers, Bool.and_eq_true] at hd
    simp only [List.lookup_cons] at h
    by_cases hk : k == key
    · simp only [hk] at h
      cases h
      exact hd.1
    · simp only [hk] at h
      exact ih hd.2 h

theorem mem_of_lookup (ns : List (String × Json)) (k : String) (w : Json)
    (h : ns.lookup k = some w) : (k, w) ∈ ns := by
  induction ns with
  | nil => simp at h
  | cons m rest ih =>
    obtain ⟨key, value⟩ := m
    simp only [List.lookup_cons] at h
    by_cases hk : k == key
    · simp only [hk] at h
      cases h
      rw [beq_iff_eq] at hk
      rw [hk]
      exact List.mem_cons_self _ _
    · simp only [hk] at h
      exact List.mem_cons_of_mem _ (ih h)

theorem lookup_of_mem_nodup (ms : List (String × Json)) (k : String) (v : Json)
    (hn : (ms.map Prod.fst).Nodup) (h : (k, v) ∈ ms) : ms.lookup k = some v := by
  induction ms with
  | nil => simp at h
  | cons m rest ih =>
    obtain ⟨key, value⟩ := m
    simp only [List.map_cons, List.nodup_cons] at hn
    rcases List.mem_cons.mp h with heq | hrest
    · obtain ⟨rfl, rfl⟩ := Prod.mk.inj heq
      simp [List.lookup_cons]
    · have hne : ¬ (k == key) = true := by
        rw [beq_iff_eq]
        rintro rfl
        exact hn.1 (List.mem_map.mpr ⟨(k, v), hrest, rfl⟩)
      simp only [List.lookup_cons, hne]
      exact ih hn.2 hrest

mutual
theorem stringify_congr : ∀ (v w : Json), sameDocument v w = true → distinctKeys v = true →
    distinctKeys w = true → stringify v = stringify w
  | .null, w, h, _, _ => by cases w <;> simp [sameDocument] at h; rfl
  | .bool a, w, h, _, _ => by cases w <;> simp [sameDocument] at h; rw [h]
  | .num a, w, h, _, _ => by cases w <;> simp [sameDocument] at h; rw [h]
  | .str a, w, h, _, _ => by cases w <;> simp [sameDocument] at h; rw [h]
  | .arr xs, w, h, h1, h2 => by
    cases w <;> simp [sameDocument] at h
    rename_i ys
    simp only [distinctKeys] at h1 h2
    simp only [stringify, stringifyItems_congr xs ys h h1 h2]
  | .obj ms, w, h, h1, h2 => by
    cases w <;> simp [sameDocument] at h
    rename_i ns
    simp only [distinctKeys, Bool.and_eq_true, decide_eq_true_eq] at h1 h2
    have hm := stringifyMembers_congr ms ns h.2 h1.2 h2.2
    have hsub : ms.map Prod.fst ⊆ ns.map Prod.fst := by
      intro k hk
      obtain ⟨⟨k2, v⟩, hmem, rfl⟩ := List.mem_map.mp hk
      obtain ⟨w, hw, _⟩ := hm k2 v hmem
      exact List.mem_map.mpr ⟨(k2, w), mem_of_lookup ns k2 w hw, rfl⟩
    have hperm : (ms.map Prod.fst).Perm (ns.map Prod.fst) :=
      (List.subperm_of_subset h1.1 hsub).perm_of_length_le (by simp [h.1])
    have hlook : ∀ k ∈ sortKeys (ms.map Prod.fst),
        (stringifyMembers ms).lookup k = (stringifyMembers ns).lookup k := by
      intro k hk
      obtain ⟨⟨k2, v⟩, hmem, rfl⟩ := List.mem_map.mp ((mem_sortKeys k _).mp hk)
      obtain ⟨w, hw, hvw⟩ := hm k2 v hmem
      rw [lookup_stringifyMembers, lookup_stringifyMembers,
        lookup_of_mem_nodup ms k2 v h1.1 hmem, hw, Option.map_some', Option.map_some', hvw]
    simp only [stringify]
    rw [← sortKeys_perm _ _ hperm, memberTexts_congr _ _ _ hlook]
theorem stringifyItems_congr : ∀ (xs ys : List Json), sameItems xs ys = true →
    distinctKeysItems xs = true → distinctKeysItems ys = true →
    stringifyItems xs = stringifyItems ys
  | [], ys, h, _, _ => by cases ys <;> simp [sameItems] at h; rfl
  | x :: xs, ys, h, h1, h2 => by
    cases ys with
    | nil => simp [sameItems] at h
    | cons y ys =>
      simp only [sameItems, Bool.and_eq_true] at h
      simp only [distinctKeysItems, Bool.and_eq_true] at h1 h2
      simp only [stringifyItems, stringify_congr x y h.1 h1.1 h2.1,
        stringifyItems_congr xs ys h.2 h1.2 h2.2]
theorem stringifyMembers_congr : ∀ (ms ns : List (String × Json)), sameMembers ms ns = true →
    distinctKeysMembers ms = true → distinctKeysMembers ns = true →
    ∀ k v, (k, v) ∈ ms → ∃ w, ns.lookup k = some w ∧ stringify v = stringify w
  | [], _, _, _, _ => by simp
  | (key, value) :: rest, ns, h, h1, h2 => by
    intro k v hmem
    simp only [sameMembers, Bool.and_eq_true] at h
    simp only [distinctKeysMembers, Bool.and_eq_true] at h1
    rcases List.mem_cons.mp hmem with heq | hrest
    · obtain ⟨rfl, rfl⟩ := Prod.mk.inj heq
      cases hl : ns.lookup k with
      | none => rw [hl] at h; simp at h
      | some w =>
        rw [hl] at h
        exact ⟨w, rfl, stringify_congr v w h.1 h1.1 (distinctKeys_of_lookup ns k w h2 hl)⟩
    · exact stringifyMembers_congr rest ns h.2 h1.2 h2 k v hrest
end

/-! ## Lemmas on splitting -/

theorem splitLoop_append_separator (sep : Char) (l rest piece : List Char) (h : sep ∉ l) :
    splitLoop sep (l ++ sep :: rest) piece = ⟨piece ++ l⟩ :: splitLoop sep rest [] := by
  induction l generalizing piece with
  | nil => simp [splitLoop]
  | cons c cs ih =>
    have hc : c ≠ sep := fun e => h (e ▸ List.mem_cons_self _ _)
    have hcs : sep ∉ cs := fun hm => h (List.mem_cons_of_mem _ hm)
    rw [List.cons_append, splitLoop, if_neg hc, ih _ hcs, List.append_assoc]
    rfl

theorem splitLoop_trailing (sep : Char) (l piece : List Char) :
    splitLoop sep (l ++ [sep]) piece = splitLoop sep l piece ++ [""] := by
  induction l generalizing piece with
  | nil => simp [splitLoop]
  | cons c cs ih =>
    by_cases hc : c = sep
    · show splitLoop sep (c :: (cs ++ [sep])) piece = splitLoop sep (c :: cs) piece ++ [""]
      rw [splitLoop, splitLoop, if_pos hc, if_pos hc, ih, List.cons_append]
    · show splitLoop sep (c :: (cs ++ [sep])) piece = splitLoop sep (c :: cs) piece ++ [""]
      rw [splitLoop, splitLoop, if_neg hc, if_neg hc, ih]

theorem splitLoop_delimited (ls : List (List Char)) (h : ∀ l ∈ ls, '|' ∉ l) :
    splitLoop '|' (delimited ls) [] = ls.map String.mk ++ [""] := by
  induction ls with
  | nil => rfl
  | cons l rest ih =>
    rw [delimited_cons, splitLoop_append_separator '|' l _ [] (h l (List.mem_cons_self _ _)),
      ih (fun x hx => h x (List.mem_cons_of_mem _ hx))]
    rfl

theorem filterBoolean_append_empty (arr : List String) :
    filterBoolean (arr ++ [""]) = filterBoolean arr := by
  simp [filterBoolean, List.filter_append, truthy]

theorem filterBoolean_of_nonempty (arr : List String) (h : ∀ l ∈ arr, l ≠ "") :
    filterBoolean arr = arr := by
  rw [filterBoolean, List.filter_eq_self]
  intro l hl
  simp only [truthy, decide_eq_true_eq]
  intro hd
  exact h l hl (String.ext hd)

/-- Splitting on the delimiter and dropping the empty pieces does not see one
more trailing delimiter. -/
theorem parse_trailing (s : String) :
    filterBoolean (split (s ++ "|") '|') = filterBoolean (split s '|') := by
  rw [split, String.data_append]
  show filterBoolean (splitLoop '|' (s.data ++ ['|']) []) = _
  rw [splitLoop_trailing, filterBoolean_append_empty]
  rfl

/-- Splitting the canonical string gives the labels back. -/
theorem parse_canonical (a : List String) (hne : ∀ l ∈ a, l ≠ "")
    (hnd : ∀ l ∈ a, '|' ∉ l.data) : filterBoolean (split (join a "|" ++ "|") '|') = a := by
  cases a with
  | nil => decide
  | cons x xs =>
    rw [split, canonical_data_of_ne_nil _ (List.cons_ne_nil x xs), splitLoop_delimited,
      filterBoolean_append_empty, List.map_map]
    · have hid : (String.mk ∘ String.data) = id := funext fun s => rfl
      rw [hid, List.map_id]
      exact filterBoolean_of_nonempty _ hne
    · intro l hl
      obtain ⟨t, ht, rfl⟩ := List.mem_map.mp hl
      exact hnd t ht

/-! ## Properties of the round's hashes and of the commit operation -/

/-- C1 (as amended): for every answer list and every non-empty salt string,
`computePlayerCommit` returns keccak256 of the UTF-8 bytes of the canonical
answer string followed by the salt, the value the test builds by hand; an
empty salt counts as absent and the random salt is hashed in its place. -/
theorem C1_computePlayerCommit (K : List Nat → List Nat) (random : List Nat)
    (a : List String) (s : String) (hs : s ≠ "") :
    Helpers.computePlayerCommit K random a (some s)
        = .ok (keccak256 K (toUtf8Bytes (canonicalizeSpec a ++ s))) ∧
      SingleFlowTest.commitHash K a s = keccak256 K (toUtf8Bytes (canonicalizeSpec a ++ s)) ∧
      Helpers.computePlayerCommit K random a (some "")
        = .ok (keccak256 K
            (toUtf8Bytes (canonicalizeSpec a ++ Helpers.generateRandomSalt random))) := by
  have ht : truthy s = true := by
    simp only [truthy, decide_eq_true_eq]
    intro hd
    exact hs (String.ext hd)
  refine ⟨?_, ?_, ?_⟩
  · simp only [Helpers.computePlayerCommit, Helpers.concatAnswers, ht, if_true,
      canonical_eq_spec]
    rfl
  · simp only [SingleFlowTest.commitHash, canonical_eq_spec]
  · simp only [Helpers.computePlayerCommit, Helpers.concatAnswers, canonical_eq_spec]
    rfl

/-- C1 at the answers and salt of the end-to-end test: the commit is the hash
of `"A|B|C|D|A|salt-test-1"`. -/
theorem C1_computePlayerCommit_witness :
    ("salt-test-1" ≠ "") ∧
      ∀ K random, Helpers.computePlayerCommit K random ["A", "B", "C", "D", "A"]
        (some "salt-test-1") = .ok (keccak256 K (toUtf8Bytes "A|B|C|D|A|salt-test-1")) :=
  ⟨by decide, fun K random =>
    (C1_computePlayerCommit K random ["A", "B", "C", "D", "A"] "salt-test-1" (by decide)).1⟩

/-- C1 as stated fails at the empty salt: with the random bytes `0, 1, ..., 15`
the bytes hashed are those of `"A|0x000102030405060708090a0b0c0d0e0f"`, not
those of `"A|"`, so under a digest that tells the two apart the commit is not
the hash of the canonical string followed by the salt. -/
theorem C1_empty_salt_counterexample :
    (∀ K, Helpers.computePlayerCommit K [0, 1, 2, 3, 4, 5, 6, 7, 8, 9, 10, 11, 12, 13, 14, 15]
        ["A"] (some "")
        = .ok (keccak256 K (toUtf8Bytes "A|0x000102030405060708090a0b0c0d0e0f"))) ∧
      toUtf8Bytes "A|0x000102030405060708090a0b0c0d0e0f"
        ≠ toUtf8Bytes (canonicalizeSpec ["A"] ++ "") ∧
      ¬ (∀ (K : List Nat → List Nat) (random : List Nat) (a : List String) (s : String),
          Helpers.computePlayerCommit K random a (some s)
            = .ok (keccak256 K (toUtf8Bytes (canonicalizeSpec a ++ s)))) := by
  refine ⟨fun K => rfl, by decide, fun h => ?_⟩
  have h1 := h (fun b => b) [0, 1, 2, 3, 4, 5, 6, 7, 8, 9, 10, 11, 12, 13, 14, 15] ["A"] ""
  revert h1
  decide

/-- C2: for a quiz hash written as `0x` and an even number of hex digits,
`computeMessageHash` returns keccak256 of the decoded quiz hash bytes
immediately followed by the UTF-8 bytes of the canonical answer string; the
digest `signCorrectAnswers` builds is the same string, the bytes it signs are
that digest's bytes, and the test's hand-built digest is the same again. -/
theorem C2_computeMessageHash (W : Ai.Wallet) (K : List Nat → List Nat) (key : String)
    (digits : List Char) (a : List String)
    (hdigits : digits.all isHexDigit = true) (heven : digits.length % 2 = 0)
    (hK : ∀ d, ∀ b ∈ K d, b < 256) (hkey : truthy key = true)
    (hacc : W.acceptsKey key = true) :
    SignCorrectAnswers.computeMessageHash K ⟨'0' :: 'x' :: digits⟩ a
        = .ok (keccak256 K (parseHexPairs digits ++ toUtf8Bytes (canonicalizeSpec a))) ∧
      Ai.messageHash K ⟨'0' :: 'x' :: digits⟩ a
        = SignCorrectAnswers.computeMessageHash K ⟨'0' :: 'x' :: digits⟩ a ∧
      Ai.signCorrectAnswers W K (some key) ⟨'0' :: 'x' :: digits⟩ a
        = .ok (W.signMessage key
            (K (parseHexPairs digits ++ toUtf8Bytes (canonicalizeSpec a)))) ∧
      SingleFlowTest.messageHash K ⟨'0' :: 'x' :: digits⟩ a
        = SignCorrectAnswers.computeMessageHash K ⟨'0' :: 'x' :: digits⟩ a := by
  have hg := getBytes_digits digits hdigits heven
  have ha := arrayify_digits digits hdigits heven
  have h1 : SignCorrectAnswers.computeMessageHash K ⟨'0' :: 'x' :: digits⟩ a
      = .ok (keccak256 K (parseHexPairs digits ++ toUtf8Bytes (canonicalizeSpec a))) := by
    exact computeMessageHash_of_getBytes K _ _ a hg
  have h2 : Ai.messageHash K ⟨'0' :: 'x' :: digits⟩ a
      = .ok (keccak256 K (parseHexPairs digits ++ toUtf8Bytes (canonicalizeSpec a))) := by
    simp only [Ai.messageHash, Helpers.concatAnswers, ha, canonical_eq_spec, concat]
    rfl
  refine ⟨h1, by rw [h1, h2], ?_, ?_⟩
  · simp only [Ai.signCorrectAnswers, hkey, hacc, if_true, h2, keccak256]
    simp only [bind, Except.bind, arrayify_hexlify _ (hK _)]
    rfl
  · rw [h1]
    simp only [SingleFlowTest.messageHash, hg, canonical_eq_spec, concat]
    rfl

/-- C2 at the quiz hash `0xAb01`, the answers of the test and a toy digest
(the first two bytes of the input). -/
theorem C2_computeMessageHash_witness :
    SignCorrectAnswers.computeMessageHash (fun d => (d.map (· % 256)).take 2) "0xAb01"
        ["A", "B", "C", "D", "A"] = .ok "0xab01" ∧
      Ai.signCorrectAnswers ⟨fun _ => true, fun k m => k ++ hexlify m⟩
        (fun d => (d.map (· % 256)).take 2) (some "k") "0xAb01" ["A", "B", "C", "D", "A"]
        = .ok "k0xab01" := by
  have h := C2_computeMessageHash ⟨fun _ => true, fun k m => k ++ hexlify m⟩
    (fun d => (d.map (· % 256)).take 2) "k" ['A', 'b', '0', '1'] ["A", "B", "C", "D", "A"]
    (by decide) (by decide)
    (by
      intro d b hb
      obtain ⟨x, _, rfl⟩ := List.mem_map.mp (List.mem_of_mem_take hb)
      exact Nat.mod_lt _ (by decide))
    (by decide) rfl
  exact ⟨h.1, h.2.2.1⟩

/-- C3: for every list of labels, the empty one included, `concatAnswers`
returns `join(a, "|") + "|"`; on a non-empty list that is every label followed
by one `"|"`; the copy in the signing script returns the same string; and
`["A","B","C"]` gives `"A|B|C|"`. -/
theorem C3_concatAnswers_canonical (a : List String) :
    Helpers.concatAnswers a = .ok (canonicalizeSpec a) ∧
      (a ≠ [] → Helpers.concatAnswers a = .ok (String.join (a.map fun l => l ++ "|"))) ∧
      SignCorrectAnswers.concatAnswers a = Helpers.concatAnswers a ∧
      Helpers.concatAnswers ["A", "B", "C"] = .ok "A|B|C|" ∧
      Helpers.concatAnswers [] = .ok "|" := by
  refine ⟨?_, ?_, rfl, by decide, by decide⟩
  · rw [Helpers.concatAnswers, canonical_eq_spec]
  · intro hne
    rw [Helpers.concatAnswers]
    congr 1
    apply String.ext
    rw [canonical_data_of_ne_nil a hne, String.data_join, delimited, List.map_map, List.map_map]
    rfl

/-- C4 (as amended): answer lists that are both empty or both non-empty, with
no `"|"` in a label, and salts that have the same length or contain no `"|"`:
equal commit preimages force the same answers (and the same salt). -/
theorem C4_commit_binding (a1 a2 : List String) (s1 s2 c1 c2 : String)
    (hne : a1 = [] ↔ a2 = [])
    (h1 : ∀ l ∈ a1, '|' ∉ l.data) (h2 : ∀ l ∈ a2, '|' ∉ l.data)
    (hs : s1.length = s2.length ∨ ('|' ∉ s1.data ∧ '|' ∉ s2.data))
    (hc1 : Helpers.concatAnswers a1 = .ok c1) (hc2 : Helpers.concatAnswers a2 = .ok c2)
    (h : c1 ++ s1 = c2 ++ s2) : a1 = a2 ∧ s1 = s2 := by
  simp only [Helpers.concatAnswers, Except.ok.injEq] at hc1 hc2
  have hd := congrArg String.data h
  rw [String.data_append, String.data_append] at hd
  have key : c1.data = c2.data ∧ s1.data = s2.data := by
    rcases hs with hlen | ⟨hn1, hn2⟩
    · exact List.append_inj' hd hlen
    · rw [← hc1, ← hc2, canonical_data, canonical_data] at hd ⊢
      have hr := congrArg List.reverse hd
      simp only [List.reverse_append, List.reverse_cons, List.reverse_nil, List.nil_append,
        List.singleton_append, List.append_assoc] at hr
      obtain ⟨e1, e2⟩ := append_delimiter_inj s1.data.reverse s2.data.reverse _ _
        (by simpa using hn1) (by simpa using hn2) hr
      have e3 := List.reverse_injective e1
      have e4 := List.reverse_injective e2
      exact ⟨by rw [e4], e3⟩
  refine ⟨canonical_injective a1 a2 hne h1 h2 ?_, String.ext key.2⟩
  rw [hc1, hc2]
  exact String.ext key.1

/-- C4 at the answers and salt of the end-to-end test: no `"|"` in a label or
in the salt, and the preimage is `"A|B|C|D|A|salt-test-1"` on both sides. -/
theorem C4_commit_binding_witness :
    Helpers.concatAnswers ["A", "B", "C", "D", "A"] = .ok "A|B|C|D|A|" ∧
      ('|' ∉ "salt-test-1".data) ∧
      ((["A", "B", "C", "D", "A"] : List String) = ["A", "B", "C", "D", "A"] ∧
        "salt-test-1" = "salt-test-1") :=
  ⟨by decide, by decide,
    C4_commit_binding ["A", "B", "C", "D", "A"] ["A", "B", "C", "D", "A"] "salt-test-1"
      "salt-test-1" "A|B|C|D|A|" "A|B|C|D|A|" (by decide) (by decide) (by decide)
      (Or.inr ⟨by decide, by decide⟩) (by decide) (by decide) (by decide)⟩

/-- C4 as stated fails: answers `["A"]` with salt `"B|x"` and answers
`["A","B"]` with salt `"x"` have the same commit preimage `"A|B|x"`, hence the
same commit hash under every digest, and the answer lists differ. -/
theorem C4_commit_binding_counterexample :
    Helpers.concatAnswers ["A"] = .ok "A|" ∧ Helpers.concatAnswers ["A", "B"] = .ok "A|B|" ∧
      "A|" ++ "B|x" = "A|B|" ++ "x" ∧
      (∀ K random, Helpers.computePlayerCommit K random ["A"] (some "B|x")
        = Helpers.computePlayerCommit K random ["A", "B"] (some "x")) ∧
      (["A"] : List String) ≠ ["A", "B"] :=
  ⟨by decide, by decide, by decide, fun _ _ => rfl, by decide⟩

/-- C5 (as amended): for answer lists that are both empty or both non-empty and
whose labels contain no `"|"`, equal canonical strings mean equal lists. -/
theorem C5_concatAnswers_injective (a b : List String) (hne : a = [] ↔ b = [])
    (ha : ∀ l ∈ a, '|' ∉ l.data) (hb : ∀ l ∈ b, '|' ∉ l.data)
    (h : Helpers.concatAnswers a = Helpers.concatAnswers b) : a = b := by
  simp only [Helpers.concatAnswers, Except.ok.injEq] at h
  exact canonical_injective a b hne ha hb h

/-- C5 on two five-question answer sets with the same canonical string. -/
theorem C5_concatAnswers_injective_witness :
    (["A", "B", "C", "D", "A"] : List String) = ["A", "B", "C", "D", "A"] :=
  C5_concatAnswers_injective ["A", "B", "C", "D", "A"] ["A", "B", "C", "D", "A"]
    (by decide) (by decide) (by decide) (by decide)

/-- C5 as stated fails: the empty answer list and the list holding one empty
label contain no `"|"`, differ, and both canonicalise to `"|"`. -/
theorem C5_empty_label_counterexample :
    (∀ l ∈ ([] : List String), '|' ∉ l.data) ∧ (∀ l ∈ ([""] : List String), '|' ∉ l.data) ∧
      Helpers.concatAnswers [] = Helpers.concatAnswers [""] ∧
      Helpers.concatAnswers [""] = .ok "|" ∧
      ([] : List String) ≠ [""] :=
  ⟨by decide, by decide, by decide, by decide, by decide⟩

/-- C6 (as amended): `concatAnswers` never signals an error; a `"|"` inside a
label is copied to the output, so a list with the label `x|y` canonicalises to
the same string as the list with the two labels `x` and `y` in its place. -/
theorem C6_concatAnswers_total (front back : List String) (x y : String) :
    Helpers.concatAnswers (front ++ (x ++ "|" ++ y) :: back)
        = .ok (canonicalizeSpec (front ++ x :: y :: back)) ∧
      SignCorrectAnswers.concatAnswers (front ++ (x ++ "|" ++ y) :: back)
        = .ok (canonicalizeSpec (front ++ x :: y :: back)) ∧
      ∀ a, ∃ text, Helpers.concatAnswers a = .ok text ∧
        SignCorrectAnswers.concatAnswers a = .ok text := by
  have key : join (front ++ (x ++ "|" ++ y) :: back) "|" ++ "|"
      = canonicalizeSpec (front ++ x :: y :: back) := by
    rw [← canonical_eq_spec]
    apply String.ext
    rw [canonical_data, canonical_data, List.map_append, List.map_append, List.map_cons,
      List.map_cons, List.map_cons, intercalate_append_cons, intercalate_append_cons,
      intercalate_cons_eq, intercalate_cons_eq]
    simp [List.append_assoc]
  exact ⟨congrArg Except.ok key, congrArg Except.ok key, fun a => ⟨_, rfl, rfl⟩⟩

/-- C6 as stated fails: the list `["A|B","C"]` has a label with the delimiter
and both copies of `concatAnswers` return the string `"A|B|C|"` for it. -/
theorem C6_no_format_error_counterexample :
    (∃ l ∈ (["A|B", "C"] : List String), '|' ∈ l.data) ∧
      Helpers.concatAnswers ["A|B", "C"] = .ok "A|B|C|" ∧
      SignCorrectAnswers.concatAnswers ["A|B", "C"] = .ok "A|B|C|" :=
  ⟨by decide, by decide, by decide⟩

/-- C7: for two 32-byte quiz hashes (each `0x` and 64 lower-case hex digits,
the form keccak256 prints) and two answer lists, if the preimages
`computeMessageHash` packs are equal then the quiz hashes are equal and so are
the canonical answer strings. The preimage is the 32 quiz hash bytes followed
by the UTF-8 bytes of the canonical answers, and it is what the function
hashes. -/
theorem C7_message_binds_quiz (q1 q2 : String) (a1 a2 : List String)
    (h1 : isQuizHash q1 = true) (h2 : isQuizHash q2 = true)
    (h : SignCorrectAnswers.packedMessage q1 a1 = SignCorrectAnswers.packedMessage q2 a2) :
    q1 = q2 ∧
      SignCorrectAnswers.concatAnswers a1 = SignCorrectAnswers.concatAnswers a2 ∧
      ∃ b, b.length = 32 ∧ getBytes q1 = .ok b ∧
        SignCorrectAnswers.packedMessage q1 a1
          = .ok (b ++ toUtf8Bytes (canonicalizeSpec a1)) ∧
        ∀ K, SignCorrectAnswers.computeMessageHash K q1 a1
          = .ok (keccak256 K (b ++ toUtf8Bytes (canonicalizeSpec a1))) := by
  obtain ⟨b1, hl1, hg1, e1⟩ := isQuizHash_spec q1 h1
  obtain ⟨b2, hl2, hg2, e2⟩ := isQuizHash_spec q2 h2
  have hp1 := packedMessage_of_getBytes q1 b1 a1 hg1
  have hp2 := packedMessage_of_getBytes q2 b2 a2 hg2
  rw [hp1, hp2] at h
  obtain ⟨hb, hu⟩ := List.append_inj (Except.ok.inj h) (by rw [hl1, hl2])
  have hc : canonicalizeSpec a1 = canonicalizeSpec a2 := toUtf8Bytes_injective _ _ hu
  refine ⟨by rw [e1, e2, hb], ?_, b1, hl1, hg1, hp1, fun K =>
    computeMessageHash_of_getBytes K q1 b1 a1 hg1⟩
  simp only [SignCorrectAnswers.concatAnswers, canonical_eq_spec, hc]

/-- C7 at the sample quiz hash and the answers of the end-to-end test: the
preimage is the 32 bytes `0x11` followed by the bytes of `"A|B|C|D|A|"`. -/
theorem C7_message_binds_quiz_witness :
    isQuizHash sampleQuizHash = true ∧
      SignCorrectAnswers.packedMessage sampleQuizHash ["A", "B", "C", "D", "A"]
        = .ok (List.replicate 32 17 ++ [65, 124, 66, 124, 67, 124, 68, 124, 65, 124]) ∧
      sampleQuizHash = sampleQuizHash ∧
      SignCorrectAnswers.concatAnswers ["A", "B", "C", "D", "A"]
        = SignCorrectAnswers.concatAnswers ["A", "B", "C", "D", "A"] :=
  ⟨by decide, by decide,
    (C7_message_binds_quiz sampleQuizHash sampleQuizHash ["A", "B", "C", "D", "A"]
      ["A", "B", "C", "D", "A"] (by decide) (by decide) rfl).1,
    (C7_message_binds_quiz sampleQuizHash sampleQuizHash ["A", "B", "C", "D", "A"]
      ["A", "B", "C", "D", "A"] (by decide) (by decide) rfl).2.1⟩

/-- C8: two quiz documents that are structurally equal up to the order in
which their objects list their keys, at any depth and with arrays in the same
order, get the same serialization and the same quizHash from
`generateQuizAndHash`. -/
theorem C8_quizHash_key_order (K : List Nat → List Nat) (v1 v2 : Json)
    (hd1 : distinctKeys v1 = true) (hd2 : distinctKeys v2 = true)
    (hsame : sameDocument v1 v2 = true) :
    (Ai.generateQuizAndHash K v1).serialized = (Ai.generateQuizAndHash K v2).serialized ∧
      (Ai.generateQuizAndHash K v1).quizHash = (Ai.generateQuizAndHash K v2).quizHash := by
  have h := stringify_congr v1 v2 hsame hd1 hd2
  simp only [Ai.generateQuizAndHash, h, and_self]

/-- C8 on the sample quiz and its reordering: the serialization has the keys
sorted at both depths and is the same for both documents. -/
theorem C8_quizHash_key_order_witness :
    sampleQuiz ≠ sampleQuizReordered ∧
      (Ai.generateQuizAndHash (fun d => d) sampleQuiz).serialized
        = "\x7b\"metadata\":\x7b\"questionCount\":5,\"timeLimitSeconds\":45\x7d,"
          ++ "\"questions\":[\"q1\"],\"quiz_id\":\"test-1\",\"round\":1\x7d" ∧
      ((Ai.generateQuizAndHash (fun d => d) sampleQuiz).serialized
          = (Ai.generateQuizAndHash (fun d => d) sampleQuizReordered).serialized ∧
        (Ai.generateQuizAndHash (fun d => d) sampleQuiz).quizHash
          = (Ai.generateQuizAndHash (fun d => d) sampleQuizReordered).quizHash) :=
  ⟨by simp [sampleQuiz, sampleQuizReordered], by decide,
    C8_quizHash_key_order (fun d => d) sampleQuiz sampleQuizReordered (by decide) (by decide)
      (by decide)⟩

/-- C10, what the code does: for a body with an answers list the handler
answers 200 with the JSON text of an object whose `commit` field is the
un-awaited promise, printed as an empty object, whatever the answers and the
salt; that is never the response carrying a commit hash string. A body
without answers gets status 400. -/
theorem C10_playerCommit_sends_promise (K : List Nat → List Nat) (random : List Nat)
    (answers : List String) (salt : Option String) :
    Server.playerCommit K random ⟨some answers, salt⟩
        = ⟨200, "\x7b\"commit\":\x7b\x7d\x7d"⟩ ∧
      (∀ h, Server.playerCommit K random ⟨some answers, salt⟩ ≠ Server.commitResponse h) ∧
      Server.playerCommit K random ⟨none, salt⟩ = ⟨400, "answers required"⟩ := by
  refine ⟨rfl, fun h heq => ?_, rfl⟩
  have hb := congrArg (fun r => r.body.data) heq
  simp [Server.playerCommit, Server.commitResponse, Server.jsonStringify, quote] at hb

/-- C10 at the answers and salt of the end-to-end test: the response body is
the text with an empty object, not the one with the commit hash. -/
theorem C10_playerCommit_failing_input :
    (∀ K random, Server.playerCommit K random
        ⟨some ["A", "B", "C", "D", "A"], some "salt-test-1"⟩
        = ⟨200, "\x7b\"commit\":\x7b\x7d\x7d"⟩) ∧
      Server.commitResponse "0xab" = ⟨200, "\x7b\"commit\":\"0xab\"\x7d"⟩ :=
  ⟨fun _ _ => rfl, by decide⟩

/-- C11: for every answer list whose labels are non-empty and free of `"|"`,
splitting the canonical string on `"|"` and dropping the empty pieces returns
the list; the parse gives the same list with and without the trailing `"|"`,
so `computeMessageHash` on either parsed list hashes the quiz hash bytes
followed by the same canonical string, as `main` does for `"A|B|C|D|A"` and
`"A|B|C|D|A|"`. -/
theorem C11_parse_undoes_canonical (a : List String) (hne : ∀ l ∈ a, l ≠ "")
    (hnd : ∀ l ∈ a, '|' ∉ l.data) :
    (SignCorrectAnswers.concatAnswers a).map (fun c => filterBoolean (split c '|')) = .ok a ∧
      filterBoolean (split (join a "|") '|') = a ∧
      SignCorrectAnswers.mainAnswers (some (join a "|" ++ "|")) = a ∧
      (a ≠ [] → SignCorrectAnswers.mainAnswers (some (join a "|")) = a) ∧
      (∀ K q, SignCorrectAnswers.computeMessageHash K q (filterBoolean (split (join a "|") '|'))
          = SignCorrectAnswers.computeMessageHash K q
              (filterBoolean (split (join a "|" ++ "|") '|'))) ∧
      (∀ K q b, getBytes q = .ok b →
        SignCorrectAnswers.computeMessageHash K q (filterBoolean (split (join a "|") '|'))
          = .ok (keccak256 K (b ++ toUtf8Bytes (canonicalizeSpec a)))) ∧
      (∀ K q, SignCorrectAnswers.mainMessageHash K q (some "A|B|C|D|A")
          = SignCorrectAnswers.mainMessageHash K q (some "A|B|C|D|A|")) := by
  have h1 := parse_canonical a hne hnd
  have h2 : filterBoolean (split (join a "|") '|') = a := by rw [← parse_trailing, h1]
  have ht : truthy (join a "|" ++ "|") = true := by
    simp [truthy, String.data_append]
  refine ⟨?_, h2, ?_, ?_, ?_, ?_, fun K q => rfl⟩
  · simp only [SignCorrectAnswers.concatAnswers, Except.map, h1]
  · simp only [SignCorrectAnswers.mainAnswers, ht, if_true, h1]
  · intro hnil
    have ht2 : truthy (join a "|") = true := by
      cases a with
      | nil => exact absurd rfl hnil
      | cons x xs =>
        have hx : x.data ≠ [] := fun hd => hne x (List.mem_cons_self _ _) (String.ext hd)
        simp only [truthy, decide_eq_true_eq, join_data, List.map_cons, intercalate_cons_eq]
        intro happ
        exact hx (List.append_eq_nil.mp happ).1
    simp only [SignCorrectAnswers.mainAnswers, ht2, if_true, h2]
  · intro K q
    rw [h1, h2]
  · intro K q b hq
    rw [h2]
    exact computeMessageHash_of_getBytes K q b a hq

/-- C11 at the answers of the end-to-end test and the sample quiz hash: both
spellings of the answer text parse to the five labels and give one digest. -/
theorem C11_parse_undoes_canonical_witness :
    SignCorrectAnswers.mainAnswers (some "A|B|C|D|A") = ["A", "B", "C", "D", "A"] ∧
      SignCorrectAnswers.mainAnswers (some "A|B|C|D|A|") = ["A", "B", "C", "D", "A"] ∧
      filterBoolean (split "A|B|C|D|A|" '|') = ["A", "B", "C", "D", "A"] ∧
      ∀ K, SignCorrectAnswers.computeMessageHash K sampleQuizHash
          (filterBoolean (split (join ["A", "B", "C", "D", "A"] "|") '|'))
        = .ok (keccak256 K (List.replicate 32 17 ++ toUtf8Bytes "A|B|C|D|A|")) :=
  ⟨by decide, by decide, by decide, fun K =>
    (C11_parse_undoes_canonical ["A", "B", "C", "D", "A"] (by decide) (by decide)).2.2.2.2.2.1
      K sampleQuizHash (List.replicate 32 17) (by decide)⟩

end QuizzAI
